import Mathlib

/-!
# Verification of the xeda flow runner and Fmax search scheduler

Shallow embedding of `src/xeda/flow_runner/__init__.py` — the dependency-aware
flow execution model (`DefaultRunner.launch`), the adaptive frequency-search
scheduler (`FmaxRunner.launch`), the worker entry point (`run_flow_fmax`),
settings-override merging (`merge_overrides`, `FlowRunner.validate_settings`)
and the `Best` record.

Numeric values are embedded as exact rationals (`ℚ`); Python's `round(x, 3)`
(banker's rounding to three decimals) is embedded as `round3` built on a
round-half-to-even integer rounding `pyRoundInt`.
-/

/-! ## Definitions -/

/-- Python's `round` to an integer: round half to even (banker's rounding). -/
def pyRoundInt (q : ℚ) : ℤ :=
  if q - ⌊q⌋ < 1/2 then ⌊q⌋
  else if 1/2 < q - ⌊q⌋ then ⌊q⌋ + 1
  else if ⌊q⌋ % 2 = 0 then ⌊q⌋ else ⌊q⌋ + 1

/-- Python's `round(q, 3)`: round to three decimal places, half to even. -/
def round3 (q : ℚ) : ℚ := (pyRoundInt (q * 1000) : ℚ) / 1000

/-- The canonical clock period of a frequency:
`clock_period = round(ONE_THOUSAND / freq, 3)` (lines 376, 391 of
`flow_runner/__init__.py`). -/
def perOf (freq : ℚ) : ℚ := round3 (1000 / freq)

/-- `round_freq_to_ps` from `FmaxRunner.launch` (lines 375-377):
`period = round(ONE_THOUSAND / freq, 3); return ONE_THOUSAND / period`. -/
def roundFreqToPs (freq : ℚ) : ℚ :=
  let period := round3 (1000 / freq)
  1000 / period

/-- Order-preserving deduplication with an accumulator of already-seen
elements: keeps the first occurrence of each element. -/
def uniqueAux : List ℚ → List ℚ → List ℚ
  | [], _ => []
  | x :: xs, seen =>
    if x ∈ seen then uniqueAux xs seen else x :: uniqueAux xs (x :: seen)

/-- `unique(lst) = list(dict.fromkeys(lst))` (lines 328-329): order-preserving
removal of duplicates, keeping the first occurrence. -/
def unique (l : List ℚ) : List ℚ := uniqueAux l []

/-- The deduplication state of one Fmax search run:
`previously_tried_frequencies` and `previously_tried_periods`
(lines 368-369; Python sets, embedded as lists used only via membership). -/
structure TriedSets where
  freqs : List ℚ
  periods : List ℚ
deriving DecidableEq

/-- The period-deduplication loop of `FmaxRunner.launch` (lines 388-395):
for each candidate frequency compute `clock_period = round(1000/freq, 3)` and
keep the pair only if the period was not previously tried.  Returns
`(clock_periods_to_try, frequencies)`. -/
def filterPeriods (triedPeriods : List ℚ) : List ℚ → List ℚ × List ℚ
  | [] => ([], [])
  | freq :: rest =>
    let (cps, fs) := filterPeriods triedPeriods rest
    let clock_period := perOf freq
    if clock_period ∈ triedPeriods then (cps, fs)
    else (clock_period :: cps, freq :: fs)

/-- One iteration's candidate generation and tried-set update
(`FmaxRunner.launch` lines 382-407, with the linspace points `pts` of the
submitted attempt passed as input): filter points already tried, canonicalize
via `round_freq_to_ps`, deduplicate with `unique`, drop periods already tried,
then record the submitted batch in both tried-sets. -/
def iterStep (st : TriedSets) (pts : List ℚ) :
    (List ℚ × List ℚ) × TriedSets :=
  let frequencies_to_try :=
    unique ((pts.filter (fun f => f ∉ st.freqs)).map roundFreqToPs)
  let (clock_periods_to_try, frequencies) :=
    filterPeriods st.periods frequencies_to_try
  ((frequencies, clock_periods_to_try),
    ⟨st.freqs ++ frequencies, st.periods ++ clock_periods_to_try⟩)

/-- A whole search run at the deduplication level: the trace of
`(state before the iteration, submitted frequencies, submitted periods)`
triples, one per iteration, starting from the given tried-sets. -/
def runTrace (st : TriedSets) : List (List ℚ) → List (TriedSets × List ℚ × List ℚ)
  | [] => []
  | pts :: rest =>
    let r := iterStep st pts
    (st, r.1.1, r.1.2) :: runTrace r.2 rest

/-- The `i`-th of `num` evenly spaced points from `lo` to `hi`. -/
def linspacePt (lo hi : ℚ) (num : ℕ) (i : ℕ) : ℚ :=
  lo + (i : ℚ) * ((hi - lo) / ((num : ℚ) - 1))

/-- `numpy.linspace(lo, hi, num)`: `num` evenly spaced points from `lo` to
`hi` inclusive, with step `(hi - lo) / (num - 1)` (line 383-384). -/
def linspacePts (lo hi : ℚ) (num : ℕ) : List ℚ :=
  (List.range num).map (linspacePt lo hi num)

/-- The even step between adjacent linspace points (`freq_step`, line 383). -/
def linspaceStep (lo hi : ℚ) (num : ℕ) : ℚ := (hi - lo) / ((num : ℚ) - 1)

/-- The frequency list a batch finally submits, as a closed form:
linspace points not previously tried, canonicalized, de-duplicated, and
stripped of already-tried periods. -/
def candFreqs (st : TriedSets) (pts : List ℚ) : List ℚ :=
  (unique ((pts.filter (fun f => f ∉ st.freqs)).map roundFreqToPs)).filter
    (fun f => perOf f ∉ st.periods)

/-- The cross-iteration consistency invariant of the two tried-sets: every
tried frequency's canonical period is a tried period. -/
def TriedInv (st : TriedSets) : Prop := ∀ f ∈ st.freqs, perOf f ∈ st.periods

/-- Hierarchical settings (`Settings` nested mappings consumed by the runner):
either a leaf value or an ordered mapping of keys to sub-settings. -/
inductive Cfg where
  | val (s : String)
  | dict (entries : List (String × Cfg))

/-- Lookup of a key in an ordered entry list. -/
def lookupEntry (d : List (String × Cfg)) (k : String) : Option Cfg :=
  match d with
  | [] => none
  | (k1, v) :: rest => if k1 = k then some v else lookupEntry rest k

/-- In-place update of a key (first occurrence), appending if absent —
the update discipline of an ordered (insertion-ordered) mapping. -/
def setEntry (d : List (String × Cfg)) (k : String) (v : Cfg) :
    List (String × Cfg) :=
  match d with
  | [] => [(k, v)]
  | (k1, v1) :: rest =>
    if k1 = k then (k, v) :: rest else (k1, v1) :: setEntry rest k v

mutual

/-- Modelled from the spec: `dict_merge` from `xeda.utils` (only its callers
are under `src/`) — right-biased deep merge, recursive only through mapping
values; a non-mapping right-hand value replaces whatever was there. -/
def dictMerge : Cfg → Cfg → Cfg
  | Cfg.dict da, Cfg.dict db => Cfg.dict (mergeEntries da db)
  | _, b => b
termination_by a b => sizeOf b

/-- Merge every right-hand entry into the left entry list, recursing into
sub-mappings through `dictMerge`. -/
def mergeEntries (da : List (String × Cfg)) :
    List (String × Cfg) → List (String × Cfg)
  | [] => da
  | (k, v) :: rest =>
    mergeEntries
      (setEntry da k
        (match lookupEntry da k with
          | some old => dictMerge old v
          | none => v)) rest
termination_by l => sizeOf l

end

/-- Modelled from the spec: `try_convert` from `xeda.utils` (only its callers
are under `src/`) — type-inference of an override value (integer, float,
boolean, list or string).  Conversion cannot fail and its result is opaque to
the claims, so the value is kept as the raw string leaf. -/
def tryConvert (s : String) : Cfg := Cfg.val s

/-- The configuration-failure taxonomy of the spec (`ConfigError`): an
override string that cannot be split into a path and a value, or a resolved
settings tree without a `design` section. -/
inductive ConfigError where
  | overrideParse (override : String)
  | noDesign
deriving DecidableEq

/-- The patch dict that `merge_overrides` (lines 38-45) actually passes to
`dict_merge`: the loop `for field in hier[:-1]` creates a nested dict chain
but rebinds `patch_dict` to each freshly created inner dict, so after the
loop `patch_dict` is the innermost dict and `patch_dict[hier[-1]] = value`
makes the merged mapping just `{hier[-1]: value}` — the outer nesting is
built and discarded. -/
def buildPatch (hier : List String) (v : Cfg) : Cfg :=
  Cfg.dict [(hier.getLastD "", v)]

/-- One override application inside `merge_overrides` (lines 36-45):
`key, val = override.split('=')` fails unless the split yields exactly a key
and a value (a `ConfigError` in the spec's taxonomy); otherwise the dotted
path is turned into a patch dict and deep-merged into the settings. -/
def applyOverride (settings : Cfg) (ov : String) : Except ConfigError Cfg :=
  match ov.splitOn "=" with
  | [key, val] =>
    Except.ok (dictMerge settings (buildPatch (key.splitOn ".") (tryConvert val)))
  | _ => Except.error (ConfigError.overrideParse ov)

/-- `merge_overrides` (lines 30-46) over an override list; the normalization
of a single comma-separated CLI string into a list happens upstream and is
not modelled. -/
def mergeOverridesE : Cfg → List String → Except ConfigError Cfg
  | s, [] => Except.ok s
  | s, ov :: rest =>
    match applyOverride s ov with
    | Except.error e => Except.error e
    | Except.ok s2 => mergeOverridesE s2 rest

/-- Whether a top-level key is present in a settings tree. -/
def hasTopKey (s : Cfg) (k : String) : Bool :=
  match s with
  | Cfg.val _ => false
  | Cfg.dict d => d.any (fun kv => kv.1 == k)

/-- `FlowRunner.validate_settings` (lines 138-148):
`assert 'design' in settings` — the missing-design configuration failure. -/
def validateSettingsE (s : Cfg) : Except ConfigError Cfg :=
  if hasTopKey s "design" then Except.ok s else Except.error ConfigError.noDesign

/-- Observable launch events: a flow being run. -/
inductive RunEvent where
  | flowRun
deriving DecidableEq

/-- The launch pipeline order (`DefaultRunner.launch` lines 264-266,
`FmaxRunner.launch` line 336): `get_design_settings` resolves and validates
the settings first; flow-run events can only happen after resolution
succeeded. -/
def resolveAndRun (settings0 : Cfg) (ovs : List String) :
    List RunEvent × Except ConfigError Cfg :=
  match mergeOverridesE settings0 ovs with
  | Except.error e => ([], Except.error e)
  | Except.ok s1 =>
    match validateSettingsE s1 with
    | Except.error e => ([], Except.error e)
    | Except.ok s2 => ([RunEvent.flowRun], Except.ok s2)

/-- A trial's parsed result mapping, reduced to the fields the scheduler
reads: the mandatory `success` flag and the worst negative slack `wns`. -/
structure TrialRes where
  success : Bool
  wns : ℚ
deriving DecidableEq

/-- The `Best` record (lines 302-306): the best passing frequency together
with the results and settings that produced it (value-level model; the
deep-copy/aliasing behaviour is modelled separately on the heap model). -/
structure Best where
  freq : ℚ
  results : TrialRes
  settings : Cfg

/-- The outcome-reduction step of `FmaxRunner.launch` (lines 426-435): a
worker outcome is the 4-tuple returned by `run_flow_fmax`; an outcome with
empty (`None`) results is skipped; a passing result with a strictly higher
frequency than the current best (or with no best yet) replaces `best` and
records the improving index. -/
def reduceOutcome (freqs : List ℚ) (acc : Option Best × Option ℕ)
    (oc : Option ℕ × Option TrialRes × Cfg × List String) :
    Option Best × Option ℕ :=
  match oc with
  | (_, none, _, _) => acc
  | (oidx, some results, fs, _rundir) =>
    let idx := oidx.getD 0
    let freq := freqs.getD idx 0
    match acc with
    | (none, ii) =>
      if results.success then (some ⟨freq, results, fs⟩, some idx) else (none, ii)
    | (some b, ii) =>
      if results.success && decide (freq > b.freq) then
        (some ⟨freq, results, fs⟩, some idx)
      else (some b, ii)

/-- Folding one batch's outcomes through the reduction step. -/
def reduceBatch (freqs : List ℚ) (acc : Option Best × Option ℕ)
    (ocs : List (Option ℕ × Option TrialRes × Cfg × List String)) :
    Option Best × Option ℕ :=
  ocs.foldl (reduceOutcome freqs) acc

/-- The best record over a whole run: each iteration starts with
`improved_idx = None` (line 419) and reduces its batch's outcomes. -/
def runBest (b : Option Best) :
    List (List ℚ × List (Option ℕ × Option TrialRes × Cfg × List String)) →
    Option Best
  | [] => b
  | (freqs, ocs) :: rest => runBest (reduceBatch freqs (b, none) ocs).1 rest

/-- The submission check of the candidate-regeneration loop (line 397):
`len(frequencies_to_try) > 0 and (max_workers - len(frequencies_to_try))
<= max(2, max_workers / 4)` (true division). -/
def enoughCandidates (numWorkers : ℕ) (fs : List ℚ) : Bool :=
  decide (0 < fs.length) &&
    decide ((numWorkers : ℚ) - (fs.length : ℚ) ≤ max 2 ((numWorkers : ℚ) / 4))

/-- One outer-loop iteration attempt of `FmaxRunner.launch` at the guard
level (line 380): `while hi_freq - lo_freq >= resolution` — a batch over the
linspace points is generated and submitted only when the guard holds (the
jitter-regeneration retries of lines 397-400 also happen under this guard). -/
def outerStep (st : TriedSets) (lo hi resolution : ℚ) (numWorkers : ℕ) :
    Option ((List ℚ × List ℚ) × TriedSets) :=
  if resolution ≤ hi - lo then some (iterStep st (linspacePts lo hi numWorkers))
  else none

/-- The post-iteration bookkeeping of `FmaxRunner.launch` (lines 451-472)
restricted to the no-improvement counter: first the step-size convergence
break (`freq_step < resolution * 0.5`, line 451), then
`if not best or improved_idx is None` increment the counter and stop once it
reaches `max_no_improvements`, else reset it to 0.  Returns the new counter
and whether the search loop terminates here. -/
def postIterUpdate (freq_step resolution : ℚ) (best : Option Best)
    (improved_idx : Option ℕ) (no_improvements max_no_improvements : ℕ) :
    ℕ × Bool :=
  if freq_step < resolution * (1/2) then (no_improvements, true)
  else if best.isNone || improved_idx.isNone then
    if max_no_improvements ≤ no_improvements + 1 then (no_improvements + 1, true)
    else (no_improvements + 1, false)
  else (0, false)

/-- The dependency-failure error (`assert dependency_flow.results['success']`
at line 290; `DependencyFailedError` in the spec's taxonomy). -/
inductive DepError where
  | dependencyFailed
deriving DecidableEq

/-- The dependency handling of `DefaultRunner.launch` (lines 273-297) for one
declared dependency with declared artifacts `genSrcs` (`rtl.sources`).
The filesystem is the predicate `fsExists`; `depRunDir` abstracts the
dependency's `flow_run_dir` and `depSuccess` the result of actually running
it (`Flow.set_run_dir` / `Flow.run_flow` live in `xeda.flows.flow`, which is
not under `src/`).  Returns whether the dependency flow was run, and the
rewritten `rtl.sources` paths (when artifacts are declared). -/
def processDependency (fsExists : List String → Bool) (runPath : List String)
    (depName : String) (depRunDir : List String) (genSrcs : List String)
    (depSuccess : Bool) : Except DepError (Bool × Option (List (List String))) :=
  if genSrcs.isEmpty then Except.ok (false, none)
  else
    let run_required := genSrcs.any (fun s => !fsExists (runPath ++ [depName, s]))
    if run_required && !depSuccess then Except.error DepError.dependencyFailed
    else Except.ok (run_required,
      some (genSrcs.map (fun s => depRunDir ++ [s])))

/-- What happens inside one worker trial: a parsed passing/failing result, or
one of the exceptions of `run_flow_fmax` (lines 97-107): `FlowFatalException`,
`KeyboardInterrupt`, `NonZeroExit`, or any other `Exception`. -/
inductive WorkerEvent where
  | done (r : TrialRes)
  | fatal
  | interrupt
  | nonZeroExit
  | otherExc
deriving DecidableEq

/-- The worker entry point `run_flow_fmax` (lines 85-109): on success the
tagged outcome `(idx, results, settings, rundir)`; every trial failure is
caught and converted to the outcome `(None, None, settings, rundir)`;
only `KeyboardInterrupt` is re-raised (the `Except.error` case). -/
def run_flow_fmax (idx : ℕ) (fs : Cfg) (rundir : List String)
    (ev : WorkerEvent) :
    Except Unit (Option ℕ × Option TrialRes × Cfg × List String) :=
  match ev with
  | WorkerEvent.done r => Except.ok (some idx, some r, fs, rundir)
  | WorkerEvent.interrupt => Except.error ()
  | WorkerEvent.fatal => Except.ok (none, none, fs, rundir)
  | WorkerEvent.nonZeroExit => Except.ok (none, none, fs, rundir)
  | WorkerEvent.otherExc => Except.ok (none, none, fs, rundir)

/-- A Python object value: a primitive or a reference to a heap object. -/
inductive PVal where
  | num (q : ℚ)
  | str (s : String)
  | boolv (b : Bool)
  | ref (a : ℕ)
deriving DecidableEq

/-- A Python object as an ordered attribute/key mapping (flat model). -/
abbrev PDict := List (String × PVal)

/-- A heap of objects; an address is an index, allocation appends. -/
abbrev Heap := List PDict

/-- Set a key of an object mapping (replace in place, append if absent). -/
def dictSet (d : PDict) (k : String) (v : PVal) : PDict :=
  if d.any (fun kv => kv.1 == k) then
    d.map (fun kv => if kv.1 == k then (k, v) else kv)
  else d ++ [(k, v)]

/-- Read the object at an address (empty for a dangling address). -/
def heapRead (h : Heap) (a : ℕ) : PDict := h.getD a []

/-- Overwrite the object at an address. -/
def heapWrite (h : Heap) (a : ℕ) (d : PDict) : Heap := h.set a d

/-- `Best.__init__` (lines 302-306) on the heap model: `copy.deepcopy` of the
results and settings mappings into fresh addresses (flat mappings, so the
deep copy is the content copied to a fresh object), then the record object
itself holding `freq` and references to the two copies.  Returns the new
heap and the record's address. -/
def mkBest (h : Heap) (freq : ℚ) (resAddr setAddr : ℕ) : Heap × ℕ :=
  let rCopy := heapRead h resAddr
  let sCopy := heapRead h setAddr
  (h ++ [rCopy, sCopy,
    [("freq", PVal.num freq), ("results", PVal.ref h.length),
      ("settings", PVal.ref (h.length + 1))]],
    h.length + 2)

/-- The finalization of `FmaxRunner.launch` (lines 501-502):
`best.iterations = num_iterations; best.runtime_minutes = runtime_minutes` —
two attribute writes on the stored record object. -/
def finalizeBest (h : Heap) (bAddr : ℕ) (iters mins : ℕ) : Heap :=
  heapWrite h bAddr
    (dictSet (dictSet (heapRead h bAddr) "iterations" (PVal.num (iters : ℚ)))
      "runtime_minutes" (PVal.num (mins : ℚ)))

/-! ## Theorems -/

theorem roundFreqToPs_eq (f : ℚ) : roundFreqToPs f = 1000 / perOf f := rfl

theorem pyRoundInt_intCast (n : ℤ) : pyRoundInt (n : ℚ) = n := by
  simp [pyRoundInt]

theorem pyRoundInt_zero : pyRoundInt 0 = 0 := by
  simpa using pyRoundInt_intCast 0

theorem round3_mul_thousand_int (q : ℚ) :
    round3 q * 1000 = ((pyRoundInt (q * 1000) : ℤ) : ℚ) := by
  unfold round3
  field_simp

theorem round3_round3 (q : ℚ) : round3 (round3 q) = round3 q := by
  unfold round3
  have h2 : ((pyRoundInt (q * 1000) : ℚ) / 1000) * 1000
      = ((pyRoundInt (q * 1000) : ℤ) : ℚ) := by
    field_simp
  rw [h2, pyRoundInt_intCast]

theorem round3_zero : round3 0 = 0 := by
  unfold round3
  norm_num [pyRoundInt_zero]

theorem uniqueAux_sublist (l : List ℚ) :
    ∀ seen, List.Sublist (uniqueAux l seen) l := by
  induction l with
  | nil => intro seen; simp [uniqueAux]
  | cons x xs ih =>
    intro seen
    rw [uniqueAux]
    by_cases h : x ∈ seen
    · rw [if_pos h]
      exact (ih seen).cons x
    · rw [if_neg h]
      exact (ih (x :: seen)).cons₂ x

theorem unique_sublist (l : List ℚ) : List.Sublist (unique l) l :=
  uniqueAux_sublist l []

theorem mem_of_mem_unique {a : ℚ} {l : List ℚ} (h : a ∈ unique l) : a ∈ l :=
  (unique_sublist l).subset h

theorem not_mem_seen_of_mem_uniqueAux (l : List ℚ) :
    ∀ (seen : List ℚ) (a : ℚ), a ∈ uniqueAux l seen → a ∉ seen := by
  induction l with
  | nil => intro seen a h; simp [uniqueAux] at h
  | cons x xs ih =>
    intro seen a h
    rw [uniqueAux] at h
    by_cases hx : x ∈ seen
    · rw [if_pos hx] at h
      exact ih seen a h
    · rw [if_neg hx] at h
      rcases List.mem_cons.1 h with rfl | h2
      · exact hx
      · intro hs
        exact (ih (x :: seen) a h2) (List.mem_cons_of_mem x hs)

theorem uniqueAux_nodup (l : List ℚ) : ∀ seen, (uniqueAux l seen).Nodup := by
  induction l with
  | nil => intro seen; simp [uniqueAux]
  | cons x xs ih =>
    intro seen
    rw [uniqueAux]
    by_cases hx : x ∈ seen
    · rw [if_pos hx]
      exact ih seen
    · rw [if_neg hx]
      rw [List.nodup_cons]
      refine ⟨fun hmem => ?_, ih (x :: seen)⟩
      exact (not_mem_seen_of_mem_uniqueAux xs (x :: seen) x hmem)
        (List.mem_cons_self x seen)

theorem unique_nodup (l : List ℚ) : (unique l).Nodup := uniqueAux_nodup l []

theorem unique_pairwise {R : ℚ → ℚ → Prop} {l : List ℚ}
    (h : l.Pairwise R) : (unique l).Pairwise R :=
  h.sublist (unique_sublist l)

theorem filterPeriods_eq (tp : List ℚ) (l : List ℚ) :
    filterPeriods tp l =
      ((l.filter (fun f => perOf f ∉ tp)).map perOf,
        l.filter (fun f => perOf f ∉ tp)) := by
  induction l with
  | nil => rfl
  | cons f rest ih =>
    rw [filterPeriods, ih]
    by_cases h : perOf f ∈ tp
    · simp [h]
    · simp [h]

theorem iterStep_eq (st : TriedSets) (pts : List ℚ) :
    iterStep st pts =
      ((candFreqs st pts, (candFreqs st pts).map perOf),
        ⟨st.freqs ++ candFreqs st pts,
          st.periods ++ (candFreqs st pts).map perOf⟩) := by
  simp only [iterStep, filterPeriods_eq, candFreqs]

theorem triedInv_update {st : TriedSets} {pts : List ℚ}
    (hinv : TriedInv st) : TriedInv (iterStep st pts).2 := by
  rw [iterStep_eq]
  intro f hf
  simp only [List.mem_append] at hf
  rcases hf with hf | hf
  · exact List.mem_append.2 (Or.inl (hinv f hf))
  · exact List.mem_append.2 (Or.inr (List.mem_map_of_mem perOf hf))

/-- A canonical frequency's period is the period it was built from. -/
theorem perOf_roundFreqToPs (f : ℚ) : perOf (roundFreqToPs f) = perOf f := by
  rw [roundFreqToPs_eq]
  by_cases h : perOf f = 0
  · rw [h, div_zero]
    show round3 (1000 / (0 : ℚ)) = (0 : ℚ)
    rw [div_zero]
    exact round3_zero
  · have h1 : (1000 : ℚ) / (1000 / perOf f) = perOf f := by
      field_simp
    show round3 (1000 / (1000 / perOf f)) = perOf f
    rw [h1]
    show round3 (round3 (1000 / f)) = round3 (1000 / f)
    exact round3_round3 _

/-- C9 — Canonicalization idempotence: for every positive frequency `f`,
`round_freq_to_ps (round_freq_to_ps f) = round_freq_to_ps f`, where
`round_freq_to_ps f = 1000 / round(1000 / f, 3)`. -/
theorem canonicalization_idempotent (f : ℚ) (hf : 0 < f) :
    roundFreqToPs (roundFreqToPs f) = roundFreqToPs f := by
  rw [roundFreqToPs_eq (roundFreqToPs f), perOf_roundFreqToPs, ← roundFreqToPs_eq]

/-- Witness for C9 at the concrete frequency `f = 3`. -/
theorem canonicalization_idempotent_witness :
    roundFreqToPs (roundFreqToPs 3) = roundFreqToPs 3 :=
  canonicalization_idempotent 3 (by norm_num)

/-- Every submitted candidate frequency is a canonical frequency. -/
theorem candFreqs_canonical {st : TriedSets} {pts : List ℚ} {f : ℚ}
    (h : f ∈ candFreqs st pts) : ∃ x, f = roundFreqToPs x := by
  have h1 := List.mem_of_mem_filter h
  have h2 := mem_of_mem_unique h1
  obtain ⟨x, _, hx⟩ := List.mem_map.1 h2
  exact ⟨x, hx.symm⟩

/-- A canonical frequency is recovered from its own canonical period. -/
theorem canonical_form (x : ℚ) :
    roundFreqToPs x = 1000 / perOf (roundFreqToPs x) := by
  rw [perOf_roundFreqToPs, roundFreqToPs_eq]

theorem candFreqs_period_not_tried {st : TriedSets} {pts : List ℚ} {f : ℚ}
    (h : f ∈ candFreqs st pts) : perOf f ∉ st.periods := by
  have := List.of_mem_filter h
  simpa using this

theorem candFreqs_freq_not_tried {st : TriedSets} {pts : List ℚ} {f : ℚ}
    (hinv : TriedInv st) (h : f ∈ candFreqs st pts) : f ∉ st.freqs :=
  fun hmem => candFreqs_period_not_tried h (hinv f hmem)

theorem candFreqs_nodup (st : TriedSets) (pts : List ℚ) :
    (candFreqs st pts).Nodup :=
  (unique_nodup _).filter _

/-- Within one batch, no two candidates share a canonical period. -/
theorem candFreqs_periods_nodup (st : TriedSets) (pts : List ℚ) :
    ((candFreqs st pts).map perOf).Nodup := by
  refine (candFreqs_nodup st pts).map_on ?_
  intro x hx y hy hxy
  obtain ⟨a, ha⟩ := candFreqs_canonical hx
  obtain ⟨b, hb⟩ := candFreqs_canonical hy
  rw [ha, canonical_form a, ← ha, hxy, hb, ← canonical_form b, ← hb]

/-- Generalized run-level deduplication: from any consistent tried-set state,
every iteration's batch has pairwise-distinct canonical periods, its
candidates' frequencies and periods avoid the tried-sets of that iteration,
and the concatenation of all submitted period batches has no duplicate and
avoids the starting tried periods. -/
theorem runTrace_dedup (ptss : List (List ℚ)) :
    ∀ st : TriedSets, TriedInv st →
      ((∀ e ∈ runTrace st ptss,
          e.2.2.Nodup ∧
          (∀ f ∈ e.2.1, f ∉ e.1.freqs ∧ perOf f ∉ e.1.periods) ∧
          (∀ p ∈ e.2.2, p ∉ e.1.periods)) ∧
        ((runTrace st ptss).map (fun e => e.2.2)).flatten.Nodup ∧
        (∀ p ∈ ((runTrace st ptss).map (fun e => e.2.2)).flatten,
          p ∉ st.periods)) := by
  induction ptss with
  | nil => intro st _; simp [runTrace]
  | cons pts rest ih =>
    intro st hinv
    have hstep := iterStep_eq st pts
    have hinv' : TriedInv (iterStep st pts).2 := triedInv_update hinv
    rw [hstep] at hinv'
    obtain ⟨ihA, ihB, ihC⟩ := ih _ hinv'
    have hOne : ∀ e ∈ runTrace st (pts :: rest),
        e.2.2.Nodup ∧
        (∀ f ∈ e.2.1, f ∉ e.1.freqs ∧ perOf f ∉ e.1.periods) ∧
        (∀ p ∈ e.2.2, p ∉ e.1.periods) := by
      intro e he
      rw [runTrace, hstep] at he
      rcases List.mem_cons.1 he with he | he
      · subst he
        refine ⟨candFreqs_periods_nodup st pts, ?_, ?_⟩
        · intro f hf
          exact ⟨candFreqs_freq_not_tried hinv hf,
            candFreqs_period_not_tried hf⟩
        · intro p hp
          obtain ⟨f, hf, hfp⟩ := List.mem_map.1 hp
          rw [← hfp]
          exact candFreqs_period_not_tried hf
      · exact ihA e he
    refine ⟨hOne, ?_, ?_⟩
    · rw [runTrace, hstep]
      simp only [List.map_cons, List.flatten_cons]
      refine (candFreqs_periods_nodup st pts).append ihB ?_
      intro p hp1 hp2
      have := ihC p hp2
      simp only [List.mem_append] at this
      exact this (Or.inr hp1)
    · intro p hp
      rw [runTrace, hstep] at hp
      simp only [List.map_cons, List.flatten_cons, List.mem_append] at hp
      rcases hp with hp | hp
      · obtain ⟨f, hf, hfp⟩ := List.mem_map.1 hp
        rw [← hfp]
        exact candFreqs_period_not_tried hf
      · have := ihC p hp
        simp only [List.mem_append] at this
        exact fun hmem => this (Or.inl hmem)

/-- C1 — Trial deduplication invariant: starting from empty tried-sets, in
every iteration of a search run no two submitted candidates share a canonical
rounded clock period, no candidate's canonical period or frequency is a
member of the tried-sets accumulated from earlier iterations, and no
canonical period is ever submitted twice within one run (the concatenation of
all submitted period batches has no duplicates). -/
theorem fmax_trial_dedup_invariant (ptss : List (List ℚ)) :
    (∀ e ∈ runTrace ⟨[], []⟩ ptss,
        e.2.2.Nodup ∧
        (∀ f ∈ e.2.1, f ∉ e.1.freqs ∧ perOf f ∉ e.1.periods) ∧
        (∀ p ∈ e.2.2, p ∉ e.1.periods)) ∧
    ((runTrace ⟨[], []⟩ ptss).map (fun e => e.2.2)).flatten.Nodup := by
  have h := runTrace_dedup ptss ⟨[], []⟩ (by intro f hf; simp at hf)
  exact ⟨h.1, h.2.1⟩

theorem floor_le_pyRoundInt (q : ℚ) : ⌊q⌋ ≤ pyRoundInt q := by
  unfold pyRoundInt
  split_ifs <;> omega

theorem pyRoundInt_le_floor_add_one (q : ℚ) : pyRoundInt q ≤ ⌊q⌋ + 1 := by
  unfold pyRoundInt
  split_ifs <;> omega

theorem pyRoundInt_mono {a b : ℚ} (hab : a ≤ b) :
    pyRoundInt a ≤ pyRoundInt b := by
  have hfl : ⌊a⌋ ≤ ⌊b⌋ := Int.floor_mono hab
  rcases lt_or_eq_of_le hfl with hlt | heq
  · have h1 := pyRoundInt_le_floor_add_one a
    have h2 := floor_le_pyRoundInt b
    omega
  · unfold pyRoundInt
    rw [← heq]
    have h1 : a - (⌊a⌋ : ℚ) ≤ b - (⌊a⌋ : ℚ) := by linarith
    split_ifs <;> first | omega | linarith

theorem pyRoundInt_ge_one {q : ℚ} (h : 1/2 < q) : 1 ≤ pyRoundInt q := by
  have h2 := floor_le_pyRoundInt q
  by_cases h0 : 1 ≤ ⌊q⌋
  · omega
  · have h3 : ⌊q⌋ = 0 := by
      have : (0 : ℤ) ≤ ⌊q⌋ := Int.floor_nonneg.2 (by linarith)
      omega
    unfold pyRoundInt
    rw [h3]
    have hfrac : ¬(q - ((0 : ℤ) : ℚ) < 1/2) := by
      push_cast
      linarith
    rw [if_neg hfrac, if_pos]
    push_cast
    linarith

theorem round3_mono {a b : ℚ} (hab : a ≤ b) : round3 a ≤ round3 b := by
  unfold round3
  have h1 : a * 1000 ≤ b * 1000 := by linarith
  have h2 : (pyRoundInt (a * 1000) : ℚ) ≤ (pyRoundInt (b * 1000) : ℚ) := by
    exact_mod_cast pyRoundInt_mono h1
  linarith

/-- For frequencies below 2 GHz the canonical period is positive. -/
theorem perOf_pos {f : ℚ} (h1 : 0 < f) (h2 : f < 2000000) : 0 < perOf f := by
  unfold perOf round3
  have hgt : (1 : ℚ)/2 < 1000 / f * 1000 := by
    rw [div_mul_eq_mul_div]
    rw [lt_div_iff₀ h1]
    linarith
  have hge : (1 : ℤ) ≤ pyRoundInt (1000 / f * 1000) := pyRoundInt_ge_one hgt
  have : (1 : ℚ) ≤ (pyRoundInt (1000 / f * 1000) : ℚ) := by exact_mod_cast hge
  linarith

theorem perOf_anti {a b : ℚ} (ha : 0 < a) (hab : a ≤ b) : perOf b ≤ perOf a := by
  unfold perOf
  apply round3_mono
  gcongr

theorem roundFreqToPs_mono {a b : ℚ} (ha : 0 < a) (hab : a ≤ b)
    (hb : b < 2000000) : roundFreqToPs a ≤ roundFreqToPs b := by
  rw [roundFreqToPs_eq, roundFreqToPs_eq]
  have hpb : 0 < perOf b := perOf_pos (lt_of_lt_of_le ha hab) hb
  have hba : perOf b ≤ perOf a := perOf_anti ha hab
  gcongr

theorem linspacePts_sorted {lo hi : ℚ} {n : ℕ} (h : lo < hi) (hn : 2 ≤ n) :
    (linspacePts lo hi n).Pairwise (· < ·) := by
  unfold linspacePts
  have hstep : 0 < (hi - lo) / ((n : ℚ) - 1) := by
    apply div_pos (by linarith)
    have : (2 : ℚ) ≤ (n : ℚ) := by exact_mod_cast hn
    linarith
  refine (List.pairwise_lt_range n).map (linspacePt lo hi n) ?_
  intro i j hij
  unfold linspacePt
  have hij' : (i : ℚ) < (j : ℚ) := by exact_mod_cast hij
  have := mul_lt_mul_of_pos_right hij' hstep
  linarith

theorem linspacePts_mem_bounds {lo hi : ℚ} {n : ℕ} (h : lo < hi) (hn : 2 ≤ n) :
    ∀ x ∈ linspacePts lo hi n, lo ≤ x ∧ x ≤ hi := by
  intro x hx
  unfold linspacePts at hx
  obtain ⟨i, hi_mem, hix⟩ := List.mem_map.1 hx
  have hin : i < n := List.mem_range.1 hi_mem
  have hn1 : (0 : ℚ) < (n : ℚ) - 1 := by
    have : (2 : ℚ) ≤ (n : ℚ) := by exact_mod_cast hn
    linarith
  have hstep : 0 ≤ (hi - lo) / ((n : ℚ) - 1) :=
    le_of_lt (div_pos (by linarith) hn1)
  rw [← hix]
  unfold linspacePt
  constructor
  · have : 0 ≤ (i : ℚ) * ((hi - lo) / ((n : ℚ) - 1)) :=
      mul_nonneg (by positivity) hstep
    linarith
  · have hile : (i : ℚ) ≤ (n : ℚ) - 1 := by
      have : (i : ℚ) + 1 ≤ (n : ℚ) := by exact_mod_cast hin
      linarith
    have h2 : (i : ℚ) * ((hi - lo) / ((n : ℚ) - 1))
        ≤ ((n : ℚ) - 1) * ((hi - lo) / ((n : ℚ) - 1)) :=
      mul_le_mul_of_nonneg_right hile hstep
    have h3 : ((n : ℚ) - 1) * ((hi - lo) / ((n : ℚ) - 1)) = hi - lo := by
      field_simp
    linarith

/-- C10 — Implicit candidate-ordering invariant: from any tried-set state,
the candidate frequency list a batch submits over linspace points of a window
`0 < lo < hi < 2000000` (MHz) with at least two points is sorted in strictly
increasing order, so the outcome tagged with index `i` refers to the `i`-th
smallest candidate of that batch. -/
theorem fmax_batch_sorted (st : TriedSets) (lo hi : ℚ) (n : ℕ)
    (h0 : 0 < lo) (h1 : lo < hi) (h2 : hi < 2000000) (hn : 2 ≤ n) :
    ((iterStep st (linspacePts lo hi n)).1.1).Pairwise (· < ·) := by
  rw [iterStep_eq]
  unfold candFreqs
  set pts := linspacePts lo hi n with hpts
  have hsorted : pts.Pairwise (· < ·) := linspacePts_sorted h1 hn
  have hbnd := linspacePts_mem_bounds h1 hn
  rw [← hpts] at hbnd
  -- the filtered points are still strictly sorted and within bounds
  have hfs : (pts.filter (fun f => f ∉ st.freqs)).Pairwise (· < ·) :=
    hsorted.filter _
  have hfb : ∀ x ∈ pts.filter (fun f => f ∉ st.freqs), lo ≤ x ∧ x ≤ hi :=
    fun x hx => hbnd x (List.mem_of_mem_filter hx)
  -- the canonicalized list is weakly sorted
  have hmap : ((pts.filter (fun f => f ∉ st.freqs)).map roundFreqToPs).Pairwise
      (· ≤ ·) := by
    refine List.pairwise_map.2 ?_
    refine hfs.imp_of_mem ?_
    intro a b ha hb hab
    have hba := hfb a ha
    have hbb := hfb b hb
    exact roundFreqToPs_mono (lt_of_lt_of_le h0 hba.1) (le_of_lt hab)
      (lt_of_le_of_lt hbb.2 h2)
  -- unique turns a weakly sorted list into a strictly sorted one
  have huniq : (unique ((pts.filter (fun f => f ∉ st.freqs)).map
      roundFreqToPs)).Pairwise (· < ·) := by
    have hle := unique_pairwise hmap
    have hne : (unique ((pts.filter (fun f => f ∉ st.freqs)).map
        roundFreqToPs)).Pairwise (· ≠ ·) := unique_nodup _
    exact (hle.and hne).imp (fun h => lt_of_le_of_ne h.1 h.2)
  exact huniq.filter _

/-- Witness for C10: first iteration with defaults `lo = 1`, `hi = 600`,
`maxWorkers = 4` and empty tried-sets. -/
theorem fmax_batch_sorted_witness :
    ((iterStep ⟨[], []⟩ (linspacePts 1 600 4)).1.1).Pairwise (· < ·) :=
  fmax_batch_sorted ⟨[], []⟩ 1 600 4 (by norm_num) (by norm_num)
    (by norm_num) (by norm_num)

theorem reduceOutcome_skip_none (freqs : List ℚ) (acc : Option Best × Option ℕ)
    (x : Option ℕ) (fs : Cfg) (rd : List String) :
    reduceOutcome freqs acc (x, none, fs, rd) = acc := rfl

theorem reduceOutcome_best_mono (freqs : List ℚ) (acc : Option Best × Option ℕ)
    (oc : Option ℕ × Option TrialRes × Cfg × List String) (b : Best)
    (hb : acc.1 = some b) :
    ∃ b2, (reduceOutcome freqs acc oc).1 = some b2 ∧ b.freq ≤ b2.freq := by
  obtain ⟨oidx, ores, fs, rd⟩ := oc
  obtain ⟨a1, a2⟩ := acc
  simp only at hb
  subst hb
  cases ores with
  | none => exact ⟨b, rfl, le_refl _⟩
  | some r =>
    simp only [reduceOutcome]
    by_cases hc : r.success && decide (freqs.getD (oidx.getD 0) 0 > b.freq)
    · rw [if_pos hc]
      refine ⟨_, rfl, ?_⟩
      have := of_decide_eq_true (Bool.and_elim_right hc)
      exact le_of_lt this
    · rw [if_neg hc]
      exact ⟨b, rfl, le_refl _⟩

theorem reduceBatch_best_mono (freqs : List ℚ)
    (ocs : List (Option ℕ × Option TrialRes × Cfg × List String)) :
    ∀ (acc : Option Best × Option ℕ) (b : Best), acc.1 = some b →
      ∃ b2, (reduceBatch freqs acc ocs).1 = some b2 ∧ b.freq ≤ b2.freq := by
  induction ocs with
  | nil => exact fun acc b hb => ⟨b, hb, le_refl _⟩
  | cons oc rest ih =>
    intro acc b hb
    obtain ⟨b1, h1, h2⟩ := reduceOutcome_best_mono freqs acc oc b hb
    obtain ⟨b2, h3, h4⟩ := ih (reduceOutcome freqs acc oc) b1 h1
    exact ⟨b2, h3, le_trans h2 h4⟩

theorem runBest_mono
    (iters : List (List ℚ × List (Option ℕ × Option TrialRes × Cfg × List String))) :
    ∀ b : Best, ∃ b2, runBest (some b) iters = some b2 ∧ b.freq ≤ b2.freq := by
  induction iters with
  | nil => exact fun b => ⟨b, rfl, le_refl _⟩
  | cons it rest ih =>
    intro b
    obtain ⟨freqs, ocs⟩ := it
    obtain ⟨b1, h1, h2⟩ := reduceBatch_best_mono freqs ocs (some b, none) b rfl
    rw [runBest, h1]
    obtain ⟨b2, h3, h4⟩ := ih b1
    exact ⟨b2, h3, le_trans h2 h4⟩

/-- C2 — Best-result monotonicity: an outcome with empty results leaves the
accumulator unchanged; a non-passing result leaves it unchanged; a result
whose candidate frequency does not exceed the current best leaves it
unchanged; whenever the best record changes, the outcome carried a passing
result and either no best existed or its frequency strictly exceeded the
previous best's; and over a whole run `best.freq` is monotonically
non-decreasing. -/
theorem best_replacement_monotone :
    (∀ freqs acc x fs rd, reduceOutcome freqs acc (x, none, fs, rd) = acc) ∧
    (∀ freqs acc oidx r fs rd, r.success = false →
        reduceOutcome freqs acc (oidx, some r, fs, rd) = acc) ∧
    (∀ freqs acc oidx r fs rd (b : Best), acc.1 = some b →
        freqs.getD (oidx.getD 0) 0 ≤ b.freq →
        reduceOutcome freqs acc (oidx, some r, fs, rd) = acc) ∧
    (∀ freqs acc oc, (reduceOutcome freqs acc oc).1 ≠ acc.1 →
        ∃ oidx r fs rd, oc = (oidx, some r, fs, rd) ∧ r.success = true ∧
          (acc.1 = none ∨ ∃ b, acc.1 = some b ∧
            b.freq < freqs.getD (oidx.getD 0) 0)) ∧
    (∀ iters (b : Best),
        ∃ b2, runBest (some b) iters = some b2 ∧ b.freq ≤ b2.freq) := by
  refine ⟨fun _ _ _ _ _ => rfl, ?_, ?_, ?_, fun iters b => runBest_mono iters b⟩
  · intro freqs acc oidx r fs rd hr
    obtain ⟨a1, a2⟩ := acc
    cases a1 with
    | none => simp [reduceOutcome, hr]
    | some b => simp [reduceOutcome, hr]
  · intro freqs acc oidx r fs rd b hb hle
    obtain ⟨a1, a2⟩ := acc
    simp only at hb
    subst hb
    simp only [reduceOutcome]
    rw [if_neg]
    intro hc
    have := of_decide_eq_true (Bool.and_elim_right hc)
    exact absurd hle (not_le.2 this)
  · intro freqs acc oc hchange
    obtain ⟨oidx, ores, fs, rd⟩ := oc
    cases ores with
    | none => exact absurd rfl hchange
    | some r =>
      refine ⟨oidx, r, fs, rd, rfl, ?_, ?_⟩
      · obtain ⟨a1, a2⟩ := acc
        cases a1 with
        | none =>
          by_cases hr : r.success
          · exact hr
          · exact absurd (by simp [reduceOutcome, hr]) hchange
        | some b =>
          by_cases hc : r.success && decide (freqs.getD (oidx.getD 0) 0 > b.freq)
          · exact Bool.and_elim_left hc
          · exact absurd (by simp only [reduceOutcome]; rw [if_neg hc]) hchange
      · obtain ⟨a1, a2⟩ := acc
        cases a1 with
        | none => exact Or.inl rfl
        | some b =>
          refine Or.inr ⟨b, rfl, ?_⟩
          by_cases hc : r.success && decide (freqs.getD (oidx.getD 0) 0 > b.freq)
          · exact of_decide_eq_true (Bool.and_elim_right hc)
          · exact absurd (by simp only [reduceOutcome]; rw [if_neg hc]) hchange

/-- C3 counterexample — at `lo = 1`, `hi = 1.09`, `resolution = 0.09` the
claim's antecedent `lo ≥ hi − resolution` holds (with equality), yet the
loop guard `hi − lo ≥ resolution` also holds and the iteration generates and
submits a batch of 4 candidates that passes the submission check. -/
theorem outer_guard_counterexample :
    ((1 : ℚ) ≥ 109/100 - 9/100) ∧
    (outerStep ⟨[], []⟩ 1 (109/100) (9/100) 4).map
        (fun r => (r.1.1.length, enoughCandidates 4 r.1.1)) = some (4, true) := by
  constructor
  · norm_num
  · norm_num [outerStep, iterStep, linspacePts, linspacePt, List.range_succ,
      unique, uniqueAux, filterPeriods, perOf, roundFreqToPs, round3,
      pyRoundInt, enoughCandidates, Int.floor_eq_iff]

/-- C3 amended — Outer termination guard: if `lo_freq > hi_freq − resolution`
(strictly) when an iteration would start, the loop guard
`hi_freq − lo_freq ≥ resolution` fails, so the search terminates without
generating candidates or submitting a batch. -/
theorem outer_termination_guard (st : TriedSets) (lo hi resolution : ℚ)
    (n : ℕ) (h : lo > hi - resolution) :
    outerStep st lo hi resolution n = none := by
  unfold outerStep
  have hng : ¬ (resolution ≤ hi - lo) := by linarith
  rw [if_neg hng]

/-- Witness for the amended C3 at `lo = hi = 2`, `resolution = 0.09`. -/
theorem outer_termination_guard_witness :
    outerStep ⟨[], []⟩ 2 2 (9/100) 4 = none :=
  outer_termination_guard ⟨[], []⟩ 2 2 (9/100) 4 (by norm_num)

/-- C4 counterexample — with `freq_step = 0.01`, `resolution = 0.09`, no best
and no improving index (a non-improving iteration) and counter 1, the
step-size convergence break fires first and the counter stays 1 instead of
being incremented to 2 as the claim demands. -/
theorem no_improvement_counter_counterexample :
    (postIterUpdate (1/100) (9/100) none none 1 3).1 ≠ 1 + 1 := by
  norm_num [postIterUpdate]

/-- C4 amended — No-improvement counter dynamics: unless the step-size
convergence break (`freq_step < resolution * 0.5`) already terminated the
iteration — in which case the counter is left unchanged — the counter is
reset to 0 exactly on iterations with a best and an improving index, is
incremented by exactly 1 on every non-improving iteration, and the search
terminates exactly when the incremented counter reaches the configured
maximum. -/
theorem no_improvement_counter_dynamics :
    (∀ fs res (b : Option Best) (ii : Option ℕ) n m, fs < res * (1/2) →
        postIterUpdate fs res b ii n m = (n, true)) ∧
    (∀ fs res (b : Best) (i : ℕ) n m, ¬ fs < res * (1/2) →
        postIterUpdate fs res (some b) (some i) n m = (0, false)) ∧
    (∀ fs res (b : Option Best) (ii : Option ℕ) n m, ¬ fs < res * (1/2) →
        (b = none ∨ ii = none) →
        (postIterUpdate fs res b ii n m).1 = n + 1 ∧
        ((postIterUpdate fs res b ii n m).2 = true ↔ m ≤ n + 1)) := by
  refine ⟨?_, ?_, ?_⟩
  · intro fs res b ii n m h
    unfold postIterUpdate
    rw [if_pos h]
  · intro fs res b i n m h
    unfold postIterUpdate
    rw [if_neg h]
    simp
  · intro fs res b ii n m h hni
    unfold postIterUpdate
    rw [if_neg h]
    have hnone : (b.isNone || ii.isNone) = true := by
      rcases hni with hni | hni <;> simp [hni]
    rw [if_pos hnone]
    by_cases hm : m ≤ n + 1
    · rw [if_pos hm]
      exact ⟨rfl, by simp [hm]⟩
    · rw [if_neg hm]
      exact ⟨rfl, by simp [hm]⟩

/-- C5 — Dependency cache and execution: if every expected generated artifact
path exists under the dependency's run directory, the dependency flow is not
re-executed (cache hit) and the run succeeds; otherwise the dependency flow
is run, the launch fails with `DependencyFailedError` unless the dependency
reports success, and on success the dependent flow's `rtl.sources` are
rewritten to the dependency's produced artifacts. -/
theorem dependency_cache_and_execution :
    (∀ fx rp dn drd (srcs : List String) ds,
        (∀ s ∈ srcs, fx (rp ++ [dn, s]) = true) →
        processDependency fx rp dn drd srcs ds =
          Except.ok (false,
            if srcs.isEmpty then none
            else some (srcs.map (fun s => drd ++ [s])))) ∧
    (∀ fx rp dn drd (srcs : List String) ds (s : String), s ∈ srcs →
        fx (rp ++ [dn, s]) = false →
        (ds = false →
          processDependency fx rp dn drd srcs ds =
            Except.error DepError.dependencyFailed) ∧
        (ds = true →
          processDependency fx rp dn drd srcs ds =
            Except.ok (true, some (srcs.map (fun sc => drd ++ [sc]))))) := by
  constructor
  · intro fx rp dn drd srcs ds hall
    unfold processDependency
    by_cases he : srcs.isEmpty
    · rw [if_pos he, if_pos he]
    · rw [if_neg he, if_neg he]
      have hreq : (srcs.any fun s => !fx (rp ++ [dn, s])) = false := by
        rw [List.any_eq_false]
        intro s hs
        rw [hall s hs]
        simp
      rw [hreq]
      simp
  · intro fx rp dn drd srcs ds s hs hmiss
    have hne : srcs.isEmpty = false := by
      cases srcs with
      | nil => exact absurd hs (List.not_mem_nil s)
      | cons a rest => rfl
    have hreq : (srcs.any fun sc => !fx (rp ++ [dn, sc])) = true := by
      rw [List.any_eq_true]
      exact ⟨s, hs, by rw [hmiss]; rfl⟩
    constructor
    · intro hds
      unfold processDependency
      rw [if_neg (by simp [hne]), hreq, hds]
      rfl
    · intro hds
      unfold processDependency
      rw [if_neg (by simp [hne]), hreq, hds]
      rfl

/-- Witness for C5: a cache hit (artifact present), a failing dependency run
(artifact missing, dependency fails), and a successful dependency run with
the source rewrite, all at concrete inputs. -/
theorem dependency_cache_and_execution_witness :
    processDependency (fun _ => true) ["run"] "synth" ["run", "synth"]
        ["top.v"] false =
      Except.ok (false, some [["run", "synth", "top.v"]]) ∧
    processDependency (fun _ => false) ["run"] "synth" ["run", "synth"]
        ["top.v"] false =
      Except.error DepError.dependencyFailed ∧
    processDependency (fun _ => false) ["run"] "synth" ["run", "synth"]
        ["top.v"] true =
      Except.ok (true, some [["run", "synth", "top.v"]]) := by
  refine ⟨?_, ?_, ?_⟩
  · have h := dependency_cache_and_execution.1 (fun _ => true) ["run"] "synth"
      ["run", "synth"] ["top.v"] false (fun s _ => rfl)
    simpa using h
  · exact (dependency_cache_and_execution.2 (fun _ => false) ["run"] "synth"
      ["run", "synth"] ["top.v"] false "top.v" (by simp) rfl).1 rfl
  · exact (dependency_cache_and_execution.2 (fun _ => false) ["run"] "synth"
      ["run", "synth"] ["top.v"] true "top.v" (by simp) rfl).2 rfl

/-- C6 — Trial failure containment: every trial failure other than an
operator interrupt (fatal flow exception, nonzero tool exit, any other
exception) does not escape the worker entry point as an exception but becomes
the tagged outcome with empty results `(None, None, settings, rundir)`, and
the coordinator's outcome reduction skips such an outcome, leaving its state
unchanged so the batch and the search continue. -/
theorem trial_failure_containment :
    (∀ idx fs rd ev, ev = WorkerEvent.fatal ∨ ev = WorkerEvent.nonZeroExit ∨
        ev = WorkerEvent.otherExc →
        run_flow_fmax idx fs rd ev = Except.ok (none, none, fs, rd)) ∧
    (∀ freqs acc x fs rd, reduceOutcome freqs acc (x, none, fs, rd) = acc) := by
  constructor
  · intro idx fs rd ev hev
    rcases hev with rfl | rfl | rfl <;> rfl
  · intro freqs acc x fs rd
    rfl

theorem heapRead_heapWrite_ne (h : Heap) (a b : ℕ) (d : PDict) (hne : a ≠ b) :
    heapRead (heapWrite h a d) b = heapRead h b := by
  unfold heapRead heapWrite
  rw [List.getD_eq_getElem?_getD, List.getD_eq_getElem?_getD,
    List.getElem?_set_ne hne]

theorem heapRead_append3 (h : Heap) (d0 d1 d2 : PDict) :
    heapRead (h ++ [d0, d1, d2]) h.length = d0 ∧
    heapRead (h ++ [d0, d1, d2]) (h.length + 1) = d1 ∧
    heapRead (h ++ [d0, d1, d2]) (h.length + 2) = d2 := by
  unfold heapRead
  refine ⟨?_, ?_, ?_⟩ <;>
    · rw [List.getD_eq_getElem?_getD, List.getElem?_append_right (by omega)]
      simp

/-- C7 counterexample — the finalization step (lines 501-502) mutates the
stored `Best` record after construction: the record object read back after
`finalizeBest` differs (two attributes were added) from the record as
constructed, refuting "after construction a Best record is never mutated". -/
theorem best_mutation_counterexample :
    (heapRead (finalizeBest (mkBest [[("success", PVal.boolv true)], []] 250 0 1).1
        (mkBest [[("success", PVal.boolv true)], []] 250 0 1).2 5 2)
      (mkBest [[("success", PVal.boolv true)], []] 250 0 1).2).length ≠
    (heapRead (mkBest [[("success", PVal.boolv true)], []] 250 0 1).1
      (mkBest [[("success", PVal.boolv true)], []] 250 0 1).2).length := by
  simp [mkBest, finalizeBest, heapRead, heapWrite, dictSet]

/-- C7 amended — Best record isolation: constructing a `Best` stores
independent copies of the passing trial's result mapping and settings, so
overwriting any pre-existing heap object (in particular the caller's live
results or settings) leaves the stored copies and the record unchanged; and
the record is only replaced during the search — only the finalization step
(lines 501-502) mutates the record object itself, leaving the two stored
copies intact. -/
theorem best_record_isolation (h : Heap) (freq : ℚ) (ra sa a : ℕ)
    (ha : a < h.length) :
    (∀ d : PDict,
      heapRead (heapWrite (mkBest h freq ra sa).1 a d) h.length
          = heapRead h ra ∧
      heapRead (heapWrite (mkBest h freq ra sa).1 a d) (h.length + 1)
          = heapRead h sa ∧
      heapRead (heapWrite (mkBest h freq ra sa).1 a d) (mkBest h freq ra sa).2
          = heapRead (mkBest h freq ra sa).1 (mkBest h freq ra sa).2) ∧
    (∀ iters mins : ℕ,
      heapRead (finalizeBest (mkBest h freq ra sa).1 (mkBest h freq ra sa).2
          iters mins) h.length = heapRead h ra ∧
      heapRead (finalizeBest (mkBest h freq ra sa).1 (mkBest h freq ra sa).2
          iters mins) (h.length + 1) = heapRead h sa) := by
  have hfst : (mkBest h freq ra sa).1 = h ++ [heapRead h ra, heapRead h sa,
      [("freq", PVal.num freq), ("results", PVal.ref h.length),
        ("settings", PVal.ref (h.length + 1))]] := rfl
  have hsnd : (mkBest h freq ra sa).2 = h.length + 2 := rfl
  obtain ⟨hr0, hr1, _⟩ := heapRead_append3 h (heapRead h ra) (heapRead h sa)
    [("freq", PVal.num freq), ("results", PVal.ref h.length),
      ("settings", PVal.ref (h.length + 1))]
  constructor
  · intro d
    refine ⟨?_, ?_, ?_⟩
    · rw [heapRead_heapWrite_ne _ _ _ _ (by omega), hfst, hr0]
    · rw [heapRead_heapWrite_ne _ _ _ _ (by omega), hfst, hr1]
    · rw [hsnd, heapRead_heapWrite_ne _ _ _ _ (by omega)]
  · intro iters mins
    unfold finalizeBest
    rw [hsnd]
    constructor
    · rw [heapRead_heapWrite_ne _ _ _ _ (by omega), hfst, hr0]
    · rw [heapRead_heapWrite_ne _ _ _ _ (by omega), hfst, hr1]

/-- Witness for the amended C7: a concrete heap with the caller's results at
address 0 and settings at address 1, the caller's results object overwritten
after construction, and a concrete finalization. -/
theorem best_record_isolation_witness :
    (heapRead (heapWrite (mkBest [[("success", PVal.boolv true)], []] 250 0 1).1 0
        [("success", PVal.boolv false)]) 2
      = heapRead [[("success", PVal.boolv true)], []] 0 ∧
    heapRead (heapWrite (mkBest [[("success", PVal.boolv true)], []] 250 0 1).1 0
        [("success", PVal.boolv false)]) 3
      = heapRead [[("success", PVal.boolv true)], []] 1 ∧
    heapRead (heapWrite (mkBest [[("success", PVal.boolv true)], []] 250 0 1).1 0
        [("success", PVal.boolv false)])
        (mkBest [[("success", PVal.boolv true)], []] 250 0 1).2
      = heapRead (mkBest [[("success", PVal.boolv true)], []] 250 0 1).1
        (mkBest [[("success", PVal.boolv true)], []] 250 0 1).2) ∧
    (heapRead (finalizeBest (mkBest [[("success", PVal.boolv true)], []] 250 0 1).1
        (mkBest [[("success", PVal.boolv true)], []] 250 0 1).2 5 2) 2
      = heapRead [[("success", PVal.boolv true)], []] 0 ∧
    heapRead (finalizeBest (mkBest [[("success", PVal.boolv true)], []] 250 0 1).1
        (mkBest [[("success", PVal.boolv true)], []] 250 0 1).2 5 2) 3
      = heapRead [[("success", PVal.boolv true)], []] 1) :=
  ⟨(best_record_isolation [[("success", PVal.boolv true)], []] 250 0 1 0
      (by norm_num)).1 [("success", PVal.boolv false)],
   (best_record_isolation [[("success", PVal.boolv true)], []] 250 0 1 0
      (by norm_num)).2 5 2⟩

theorem applyOverride_parse_error (s : Cfg) (ov : String)
    (h : (ov.splitOn "=").length ≠ 2) :
    applyOverride s ov = Except.error (ConfigError.overrideParse ov) := by
  unfold applyOverride
  rcases hsp : ov.splitOn "=" with _ | ⟨a, _ | ⟨b, _ | ⟨c, rest⟩⟩⟩
  · rfl
  · rfl
  · rw [hsp] at h
    simp at h
  · rfl

theorem mergeOverridesE_error_of_bad (ovs : List String) :
    ∀ (s0 : Cfg) (ov : String), ov ∈ ovs → (ov.splitOn "=").length ≠ 2 →
      ∃ e, mergeOverridesE s0 ovs = Except.error e := by
  induction ovs with
  | nil => intro s0 ov h; exact absurd h (List.not_mem_nil ov)
  | cons o rest ih =>
    intro s0 ov hmem hbad
    rw [mergeOverridesE]
    cases happ : applyOverride s0 o with
    | error e => exact ⟨e, rfl⟩
    | ok s2 =>
      rcases List.mem_cons.1 hmem with rfl | hmem2
      · rw [applyOverride_parse_error s0 ov hbad] at happ
        exact absurd happ (by simp)
      · exact ih s2 ov hmem2 hbad

/-- C8 — Configuration failure behaviour: settings resolution fails with a
`ConfigError` when some dotted-path override string cannot be split into a
path and a value, or when the fully resolved settings has no top-level
`design` section; in either case the launch pipeline emits no flow-run event,
so the failure occurs before any flow runs. -/
theorem config_failure_before_flows :
    (∀ (s0 : Cfg) (ovs : List String) (ov : String), ov ∈ ovs →
        (ov.splitOn "=").length ≠ 2 →
        ∃ e, resolveAndRun s0 ovs = ([], Except.error e)) ∧
    (∀ (s0 : Cfg) (ovs : List String) (s : Cfg),
        mergeOverridesE s0 ovs = Except.ok s →
        hasTopKey s "design" = false →
        resolveAndRun s0 ovs = ([], Except.error ConfigError.noDesign)) := by
  constructor
  · intro s0 ovs ov hmem hbad
    obtain ⟨e, he⟩ := mergeOverridesE_error_of_bad ovs s0 ov hmem hbad
    refine ⟨e, ?_⟩
    unfold resolveAndRun
    rw [he]
  · intro s0 ovs s hok hkey
    unfold resolveAndRun
    rw [hok]
    simp [validateSettingsE, hkey]
